import Mathlib

/-!
# Verification of the P455w0rd combination engine

Shallow embedding of the core modules of the P455w0rd password-candidate
generator (`src/combinatorics.rs`, `src/generator.rs`, `src/words.rs`,
`src/args.rs`) together with proofs about the specification's claims.

Modelling conventions:
* `u64`/`usize` values are `Nat`.  Rust `checked_add`/`checked_mul` followed by
  `unwrap_or(u64::MAX)` is saturation at `U64MAX`; bare `+`, `.sum()` and
  `.product()` on machine integers wrap modulo `2^64` (release semantics).
* `Result<T, String>` is `Except String T`.
* Rust `String::len` is the UTF-8 byte length, embedded as `byteLen`.
* `char::to_lowercase`/`to_uppercase` are embedded per-`Char`; all concrete
  inputs used in theorems are ASCII, where this agrees with Rust.
* A Rust `HashSet` used as a working set is an insertion-ordered duplicate-free
  list.  The arbitrary iteration order of the deduplication `HashSet` in
  `calculate_total_combinations` is an explicit `order` parameter, constrained
  to be a permutation of the deduplicated input.
* The two `f64` fields: `average_length` is embedded as an unreduced
  numerator/denominator pair `FracF64` (exact for every input appearing in a
  theorem below, where the quotient is representable in `f64`), and the
  `estimate_average_password_length` multiplier is embedded with explicit
  round-to-nearest-even `f64` rounding.
* File/terminal I/O (the buffered writer, status display, atomic rename) is
  abstracted: the generator returns the written lines and their count.
-/

/-! ## Machine arithmetic -/

/-- `u64::MAX`. -/
def U64MAX : Nat := 2 ^ 64 - 1

/-- The saturation cap used by the exact analysis path. -/
def CAP : Nat := 1000000000

/-- Wrapping `u64`/`usize` arithmetic (Rust release semantics). -/
def wrap64 (n : Nat) : Nat := n % 2 ^ 64

/-- `checked_add(..).unwrap_or(u64::MAX)` on values `≤ U64MAX`. -/
def satAdd (a b : Nat) : Nat := min (a + b) U64MAX

/-- `checked_mul(..).unwrap_or(u64::MAX)` on values `≤ U64MAX`. -/
def satMul (a b : Nat) : Nat := min (a * b) U64MAX

/-- The accumulation loop of the multi-word branch of
`calculate_breakdown_by_word_count`: saturating addition with an early
`break` once the running total reaches `u64::MAX`. -/
def satSumBreak : List Nat → Nat → Nat
  | [], acc => acc
  | x :: xs, acc =>
    if satAdd acc x = U64MAX then U64MAX else satSumBreak xs (satAdd acc x)

/-- Wrapping `+=` / `.sum::<u64>()`. -/
def wrapSum (l : List Nat) : Nat := l.foldl (fun a v => wrap64 (a + v)) 0

/-- Wrapping `.product::<u64>()`. -/
def wrapProd (l : List Nat) : Nat := l.foldl (fun a v => wrap64 (a * v)) 1

theorem satAdd_le_max (a b : Nat) : satAdd a b ≤ U64MAX := min_le_right _ _

theorem satMul_le_max (a b : Nat) : satMul a b ≤ U64MAX := min_le_right _ _

theorem satSumBreak_eq (l : List Nat) (acc : Nat) (h : acc ≤ U64MAX) :
    satSumBreak l acc = min (acc + l.sum) U64MAX := by
  induction l generalizing acc with
  | nil => simp [satSumBreak, Nat.min_eq_left h]
  | cons x xs ih =>
    simp only [satSumBreak, List.sum_cons]
    by_cases hc : satAdd acc x = U64MAX
    · rw [if_pos hc]
      unfold satAdd at hc
      omega
    · rw [if_neg hc]
      have hax : satAdd acc x = acc + x := by unfold satAdd at hc ⊢; omega
      have hle : acc + x ≤ U64MAX := by unfold satAdd at hc; omega
      rw [hax, ih (acc + x) hle]
      omega

theorem satSumBreak_eq_min (l : List Nat) :
    satSumBreak l 0 = min l.sum U64MAX := by
  simpa using satSumBreak_eq l 0 (Nat.zero_le _)

theorem foldl_satMul_eq (l : List Nat) (acc : Nat) (hacc : acc ≤ U64MAX)
    (hl : ∀ x ∈ l, 1 ≤ x) :
    l.foldl satMul acc = min (acc * l.prod) U64MAX := by
  induction l generalizing acc with
  | nil => simp [Nat.min_eq_left hacc]
  | cons x xs ih =>
    simp only [List.foldl_cons, List.prod_cons]
    have hx : 1 ≤ x := hl x (List.mem_cons_self x xs)
    have hxs : ∀ y ∈ xs, 1 ≤ y := fun y hy => hl y (List.mem_cons_of_mem x hy)
    rw [ih (satMul acc x) (satMul_le_max _ _) hxs]
    have hprod1 : 1 ≤ xs.prod := List.one_le_prod_of_one_le hxs
    unfold satMul
    rcases Nat.le_total (acc * x) U64MAX with hle | hge
    · rw [Nat.min_eq_left hle, Nat.mul_assoc]
    · rw [Nat.min_eq_right hge]
      have h1 : U64MAX ≤ U64MAX * xs.prod := Nat.le_mul_of_pos_right _ hprod1
      have h2 : U64MAX ≤ acc * x * xs.prod :=
        le_trans hge (Nat.le_mul_of_pos_right _ hprod1)
      rw [Nat.min_eq_right h1, Nat.min_eq_right (by rw [Nat.mul_assoc] at h2; exact h2)]

theorem wrapSum_eq (l : List Nat) : wrapSum l = l.sum % 2 ^ 64 := by
  have key : ∀ (l : List Nat) (acc : Nat),
      l.foldl (fun a v => wrap64 (a + v)) (acc % 2 ^ 64) = (acc + l.sum) % 2 ^ 64 := by
    intro l
    induction l with
    | nil => intro acc; simp
    | cons x xs ih =>
      intro acc
      simp only [List.foldl_cons, List.sum_cons]
      have : wrap64 (acc % 2 ^ 64 + x) = (acc + x) % 2 ^ 64 := by
        unfold wrap64; omega
      rw [this, ih (acc + x), Nat.add_assoc]
  have := key l 0
  simpa [wrapSum] using this

theorem wrapProd_eq (l : List Nat) : wrapProd l = l.prod % 2 ^ 64 := by
  have key : ∀ (l : List Nat) (acc : Nat),
      l.foldl (fun a v => wrap64 (a * v)) (acc % 2 ^ 64) = (acc * l.prod) % 2 ^ 64 := by
    intro l
    induction l with
    | nil => intro acc; simp
    | cons x xs ih =>
      intro acc
      simp only [List.foldl_cons, List.prod_cons]
      have : wrap64 (acc % 2 ^ 64 * x) = (acc * x) % 2 ^ 64 := by
        simp [wrap64, Nat.mod_mul_mod]
      rw [this, ih (acc * x), Nat.mul_assoc]
  have := key l 1
  simpa [wrapProd] using this

/-! ## Strings -/

/-- Rust `String::len`: the UTF-8 byte length. -/
def byteLen (s : String) : Nat :=
  s.data.foldl
    (fun n c =>
      n + (if c.toNat < 128 then 1 else if c.toNat < 2048 then 2
           else if c.toNat < 65536 then 3 else 4)) 0

/-- `str::to_lowercase`, per character (agrees with Rust on ASCII). -/
def strLower (s : String) : String := ⟨s.data.map Char.toLower⟩

/-- `str::to_uppercase`, per character (agrees with Rust on ASCII). -/
def strUpper (s : String) : String := ⟨s.data.map Char.toUpper⟩

/-- `capitalize_word` of `src/words.rs`: uppercase the first character when
that changes it, otherwise return the word unchanged. -/
def capitalizeWord (word : String) : String :=
  match word.data with
  | [] => ""
  | first :: rest =>
    if Char.toUpper first = first then word else ⟨Char.toUpper first :: rest⟩

/-- `capitalize_word_combinatorics` of `src/combinatorics.rs` (same logic as
`capitalize_word`, duplicated in the source). -/
def capitalizeWordCombinatorics (word : String) : String :=
  match word.data with
  | [] => ""
  | first :: rest =>
    if Char.toUpper first = first then word else ⟨Char.toUpper first :: rest⟩

/-- Lexicographic order on character lists by scalar value.  UTF-8 encoding
preserves scalar-value order, so this is exactly Rust's byte-wise `Ord` for
`String`. -/
def charListLe : List Char → List Char → Bool
  | [], _ => true
  | _ :: _, [] => false
  | a :: as, b :: bs => if a = b then charListLe as bs else decide (a < b)

/-- Rust `String` ordering (byte-wise lexicographic). -/
def strLe (a b : String) : Bool := charListLe a.data b.data

/-- `Vec::dedup`: remove consecutive duplicates. -/
def dedupAdjacent : List String → List String
  | [] => []
  | [x] => [x]
  | x :: y :: rest =>
    if x = y then dedupAdjacent (y :: rest) else x :: dedupAdjacent (y :: rest)

/-- `Vec::sort` on strings (stable sort in Rust's byte order), then
`Vec::dedup`. -/
def sortDedup (l : List String) : List String :=
  dedupAdjacent (List.insertionSort (fun a b => strLe a b = true) l)

/-- All ways to insert `x` into a list. -/
def insertEverywhere (x : α) : List α → List (List α)
  | [] => [[x]]
  | y :: ys => (x :: y :: ys) :: (insertEverywhere x ys).map (y :: ·)

/-- All permutations of a list (itertools `.permutations(len)`), by
structural recursion so that it evaluates inside the kernel.  The enumeration
order differs from itertools', but every use below is order-insensitive (set
insertion, or sums shown to be enumeration-order independent). -/
def permutationsOf : List α → List (List α)
  | [] => [[]]
  | x :: xs => (permutationsOf xs).flatMap (insertEverywhere x)

/-! ## `src/words.rs` -/

/-- The l33t replacement alphabet (identical in `words.rs` and
`combinatorics.rs`). -/
def leetReplacements : List (Char × Char) :=
  [('a', '4'), ('e', '3'), ('i', '1'), ('l', '1'), ('o', '0'), ('s', '5')]

/-- Whether a character is l33t-replaceable. -/
def isReplaceable (c : Char) : Bool :=
  leetReplacements.any (fun p => p.1 = c)

/-- Apply one bitmask of replacements (`words.rs` loop body): for each bit set
in `mask`, substitute the replacement character at the recorded position. -/
def applyLeetMask (chars : List Char) (positions : List (Nat × Char × Char))
    (mask : Nat) : List Char :=
  (positions.enum).foldl
    (fun cs p =>
      if (mask >>> p.1) &&& 1 = 1 then cs.set p.2.1 p.2.2.2 else cs)
    chars

/-- `generate_all_leet_for_word` of `src/words.rs`: every subset of the
replaceable positions, by bitmask. -/
def generateAllLeetForWord (word : String) : List String :=
  let chars := word.data
  let replaceablePositions : List (Nat × Char × Char) :=
    chars.enum.filterMap
      (fun p =>
        (leetReplacements.find? (fun r => r.1 = p.2)).map
          (fun r => (p.1, p.2, r.2)))
  if replaceablePositions.isEmpty then [word]
  else
    (List.range (1 <<< replaceablePositions.length)).map
      (fun mask => ⟨applyLeetMask chars replaceablePositions mask⟩)

/-- `create_word_variants` of `src/words.rs`: all l33t variants of the
lowercased word, each in lowercase / capitalized / uppercase form, sorted and
deduplicated. -/
def createWordVariants (word : String) : List String :=
  let lower := strLower word
  let leetVariants := generateAllLeetForWord lower
  let capitalizationVariants :=
    leetVariants.flatMap
      (fun leetWord => [leetWord, capitalizeWord leetWord, strUpper leetWord])
  sortDedup capitalizationVariants

/-! ## `src/combinatorics.rs`: data model -/

structure CombinatorialConfig where
  max_words : Nat
  include_special_chars : Bool
deriving Repr, DecidableEq

/-- An exact (unreduced) fraction, standing in for an `f64` value.  Every
comparison made on it below coincides with the comparison of the exact
values. -/
structure FracF64 where
  num : Nat
  den : Nat
deriving Repr, DecidableEq

structure WordCountBreakdown where
  word_count : Nat
  combinations : Nat
  /-- `f64` in the source; exact fraction here (see the header). -/
  average_length : FracF64
deriving Repr, DecidableEq

structure CombinationBreakdown where
  word_permutations : Nat
  leet_variants : Nat
  case_variants : Nat
  special_char_variants : Nat
  by_word_count : List WordCountBreakdown
deriving Repr, DecidableEq

structure CombinatorialAnalysis where
  total_combinations : Nat
  estimated_file_size_bytes : Nat
  breakdown : CombinationBreakdown
deriving Repr, DecidableEq

/-! ## `src/combinatorics.rs`: counting -/

/-- The count of l33t-replaceable characters of the lowercased word (the
filter-count inside `calculate_leet_variants`). -/
def replaceableCount (word : String) : Nat :=
  ((strLower word).data.filter (fun ch => isReplaceable ch)).length

/-- `calculate_leet_variants`: `2^k` for `k` replaceable characters in the
lowercased word, saturated to `u64::MAX` for `k ≥ 64` (the source returns
before shifting, so no overflow occurs). -/
def calculateLeetVariants (word : String) : Nat :=
  if replaceableCount word ≥ 64 then U64MAX else 1 <<< replaceableCount word

/-- The `checked_mul` loop of `permutation_count` (`?` modelled as an early
return). -/
def permutationCountLoop (n : Nat) : List Nat → Nat → Except String Nat
  | [], result => .ok result
  | i :: is, result =>
    if result * (n - i) ≤ U64MAX then permutationCountLoop n is (result * (n - i))
    else .error "Overflow in permutation calculation"

/-- `permutation_count`: `P(n, k)` by repeated `checked_mul`, `Err` on
overflow. -/
def permutationCount (n k : Nat) : Except String Nat :=
  if k > n then .ok 0 else permutationCountLoop n (List.range k) 1

/-- The loop of `calculate_word_permutations`. -/
def wordPermutationsLoop (n : Nat) : List Nat → Nat → Except String Nat
  | [], total => .ok total
  | k :: ks, total =>
    match permutationCount n k with
    | .error e => .error e
    | .ok permutations =>
      if total + permutations ≤ U64MAX then
        wordPermutationsLoop n ks (total + permutations)
      else .error "Overflow calculating permutations"

/-- `calculate_word_permutations`: `Σ_{j=1}^{min(max_words,n)} P(n,j)` with
`checked_add`, `Err` on overflow. -/
def calculateWordPermutations (n maxWords : Nat) : Except String Nat :=
  wordPermutationsLoop n (List.range' 1 (min maxWords n)) 0

/-- The special-character alphabet of both modules. -/
def specialChars : List Char := ['!', '@', '#', '$', '%']

/-- The `2..=n` loop of `calculate_special_char_variants`, with its
`break` once the total saturates. -/
def specialCharLoop : List Nat → Nat → Nat
  | [], total => total
  | k :: ks, total =>
    let permutations := (permutationCount specialChars.length k).toOption.getD U64MAX
    let doubled := satMul permutations 2
    let total := satAdd total doubled
    if total = U64MAX then U64MAX else specialCharLoop ks total

/-- `calculate_special_char_variants`: `1 + n + n + Σ_{k=2}^{n} 2·P(n,k)` over
the 5-character alphabet (evaluates to `651`). -/
def calculateSpecialCharVariants : Nat :=
  let n := specialChars.length
  specialCharLoop (List.range' 2 (n - 1)) (satAdd (satAdd 1 n) n)

/-- `generate_all_leet_for_word_combinatorics`: like
`generateAllLeetForWord`, but positions are recorded without their
replacement (looked up when the mask bit is set) and the no-replaceable case
is not special-cased (the single mask `0` yields the word). -/
def generateAllLeetForWordCombinatorics (word : String) : List String :=
  let chars := word.data
  let replaceablePositions : List Nat :=
    (chars.enum.filter (fun p => isReplaceable p.2)).map (fun p => p.1)
  (List.range (1 <<< replaceablePositions.length)).map
    (fun mask =>
      ⟨(replaceablePositions.enum).foldl
        (fun cs p =>
          if (mask >>> p.1) &&& 1 = 1 then
            match cs.get? p.2 with
            | some c =>
              match leetReplacements.find? (fun r => r.1 = c) with
              | some r => cs.set p.2 r.2
              | none => cs
            | none => cs
          else cs)
        chars⟩)

/-- `calculate_actual_word_variants`: the deduplicated count of all l33t
variants of the lowercased word in their three case forms. -/
def calculateActualWordVariants (word : String) : Nat :=
  let lower := strLower word
  let leetVariants := generateAllLeetForWordCombinatorics lower
  let variants :=
    leetVariants.flatMap
      (fun leetWord =>
        [leetWord, capitalizeWordCombinatorics leetWord, strUpper leetWord])
  (sortDedup variants).length

/-- All ordered arrangements of `k` distinct elements: itertools
`.permutations(k)`.  The enumeration order differs from itertools', but every
use below is order-insensitive (set insertion, or saturating sums shown equal
to `min (sum) U64MAX` by `satSumBreak_eq_min`). -/
def kpermutations (l : List α) (k : Nat) : List (List α) :=
  (List.sublistsLen k l).flatMap permutationsOf

/-- The `k`-word total of `calculate_breakdown_by_word_count` before the
special-character multiplier: for `k == 1` the wrapping sum of per-word
variant counts, otherwise the saturating sum over all `k`-index permutations
of the saturating product of the selected words' variant counts. -/
def comboEntryBase (words : List String) (k : Nat) : Nat :=
  if k = 1 then
    wrapSum (words.map calculateActualWordVariants)
  else
    satSumBreak
      ((kpermutations (List.range words.length) k).map
        (fun indices =>
          indices.foldl
            (fun cartesianProduct idx =>
              satMul cartesianProduct
                (calculateActualWordVariants (words.getD idx "")))
            1))
      0

/-- One `WordCountBreakdown` entry (`average_length` as an exact rational;
the source computes it in `f64`, exactly representable for all inputs used in
theorems below). -/
def wordCountEntry (words : List String) (k : Nat) (includeSpecialChars : Bool) :
    WordCountBreakdown :=
  let specialVariants := if includeSpecialChars then calculateSpecialCharVariants else 1
  let totalCombinations := satMul (comboEntryBase words k) specialVariants
  -- `avg_word_length = Σ len / k` and `avg_length = avg_word_length * k`,
  -- both in `f64`; as an exact fraction: `(Σ len · k) / k`.
  let avgLengthTimesK : FracF64 :=
    ⟨(((words.take k).map byteLen).sum) * k, k⟩
  { word_count := k
    combinations := totalCombinations
    average_length := avgLengthTimesK }

/-- The per-`k` loop of `calculate_breakdown_by_word_count`: the
`permutation_count` call whose value is discarded still propagates its error
(`?` in the source). -/
def breakdownLoop (words : List String) (includeSpecialChars : Bool) :
    List Nat → List WordCountBreakdown → Except String (List WordCountBreakdown)
  | [], breakdown => .ok breakdown
  | k :: ks, breakdown =>
    match permutationCount words.length k with
    | .error e => .error e
    | .ok _permutations =>
      breakdownLoop words includeSpecialChars ks
        (breakdown ++ [wordCountEntry words k includeSpecialChars])

/-- `calculate_breakdown_by_word_count`.  The unused `_leet_variants_per_word`
argument is dropped. -/
def calculateBreakdownByWordCount (words : List String) (maxWords : Nat)
    (includeSpecialChars : Bool) : Except String (List WordCountBreakdown) :=
  breakdownLoop words includeSpecialChars (List.range' 1 (min maxWords words.length)) []

/-! ### `estimate_average_password_length` and its `f64` arithmetic -/

/-- `⌊log₂ n⌋` for `0 < n < 2^128` (a structurally-evaluating stand-in for
`Nat.log2`, large enough for every value reachable here). -/
def floorLog2 (n : Nat) : Nat :=
  (List.range 128).foldl (fun acc k => if 2 ^ (k + 1) ≤ n then k + 1 else acc) 0

/-- Round `num / 2^s` to the nearest integer, ties to even. -/
def roundEvenDiv (num s : Nat) : Nat :=
  let q := num >>> s
  let r := num % 2 ^ s
  let half := 2 ^ (s - 1)
  if half < r ∨ (r = half ∧ q % 2 = 1) then q + 1 else q

/-- `usize as f64`: round to nearest even to 53 significant bits. -/
def roundF64Nat (a : Nat) : Nat :=
  if a < 2 ^ 53 then a
  else
    let s := floorLog2 a - 52
    (roundEvenDiv a s) <<< s

/-- `(a as f64 * m) as usize`, where the multiplier is the `f64` with
significand `mantissa · 2⁻⁵²` (in `[1,2)`): the exact product is rounded to
nearest-even `f64` and truncated. -/
def f64MulFloor (a mantissa : Nat) : Nat :=
  let P := roundF64Nat a * mantissa
  if P = 0 then 0
  else
    let t := floorLog2 P
    let rounded := if t ≤ 52 then P else (roundEvenDiv P (t - 52)) <<< (t - 52)
    rounded >>> 52

/-- The `f64` significand of `1.2` (times `2⁵²`). -/
def mantissaOnePointTwo : Nat := 5404319552844595

/-- The `f64` significand of `1.5` (times `2⁵²`). -/
def mantissaOnePointFive : Nat := 6755399441055744

/-- `estimate_average_password_length`: integer mean byte length times `1.5`
(special chars) or `1.2`, truncated. -/
def estimateAveragePasswordLength (words : List String)
    (includeSpecialChars : Bool) : Nat :=
  if words.isEmpty then 0
  else
    let avgWordLength := wrap64 ((words.map byteLen).sum) / words.length
    f64MulFloor avgWordLength
      (if includeSpecialChars then mantissaOnePointFive else mantissaOnePointTwo)

/-! ### `calculate_total_combinations` -/

/-- `calculate_total_combinations`.  The deduplication
`words.iter().cloned().collect::<HashSet<_>>().into_iter().collect()` yields
the distinct words in an arbitrary, unspecified iteration order; that order is
the explicit parameter `uniqueWords`, constrained by `IsDedupOrder` in the
theorems below. -/
def calculateTotalCombinations (words : List String) (uniqueWords : List String)
    (config : CombinatorialConfig) : Except String CombinatorialAnalysis :=
  if words.isEmpty then .error "No words provided for combinatorial analysis"
  else
    match calculateWordPermutations uniqueWords.length config.max_words with
    | .error e => .error e
    | .ok wordPermutations =>
      let leetVariantsPerWord := uniqueWords.map calculateLeetVariants
      let totalLeetVariants := wrapProd leetVariantsPerWord
      let specialCharVariants :=
        if config.include_special_chars then calculateSpecialCharVariants else 1
      match calculateBreakdownByWordCount uniqueWords config.max_words
          config.include_special_chars with
      | .error e => .error e
      | .ok byWordCount =>
        let totalCombinations :=
          min (wrap64 ((byWordCount.map (fun b => b.combinations)).sum)) CAP
        let avgPasswordLength :=
          estimateAveragePasswordLength uniqueWords config.include_special_chars
        let estimatedFileSizeBytes := satMul totalCombinations (avgPasswordLength + 1)
        .ok
          { total_combinations := totalCombinations
            estimated_file_size_bytes := estimatedFileSizeBytes
            breakdown :=
              { word_permutations := wordPermutations
                leet_variants := totalLeetVariants
                case_variants := 3
                special_char_variants := specialCharVariants
                by_word_count := byWordCount } }

/-- The possible iteration orders of the deduplication `HashSet`: any
permutation of the distinct input words. -/
def IsDedupOrder (uniqueWords words : List String) : Prop :=
  List.Perm uniqueWords words.dedup

instance (uniqueWords words : List String) :
    Decidable (IsDedupOrder uniqueWords words) :=
  List.decidablePerm _ _

/-! ## `src/args.rs` -/

/-- `Args::get_max_words`: `0` means unlimited (`usize::MAX`). -/
def getMaxWords (maxWords : Nat) : Nat :=
  if maxWords = 0 then U64MAX else maxWords

/-! ## `src/generator.rs` -/

structure GeneratorConfig where
  min_len : Nat
  max_len : Nat
  limit : Nat
  output_file : String
  chunk_size : Nat
  quiet : Bool
  append : Bool
deriving Repr, DecidableEq

/-- Resource limits of `src/generator.rs`. -/
def MAX_WORD_VARIANTS : Nat := 1000

def MAX_COMBINATION_SIZE : Nat := 4

def MAX_HASHSET_SIZE : Nat := 1000000

/-- `HashSet::insert` as membership-guarded list extension. -/
def hsInsert (s : List String) (x : String) : List String :=
  if x ∈ s then s else x :: s

/-- `generate_cartesian_product_for_length` (`cartesian_recursive`):
depth-first concatenation over the per-word variant groups, pruning any
partial concatenation longer than the target length, keeping completed ones
of length at most the target. -/
def cartesianRecursive (groups : List (List String)) (current : String)
    (targetLength : Nat) : List String :=
  match groups with
  | [] => if byteLen current ≤ targetLength then [current] else []
  | g :: rest =>
    g.flatMap
      (fun variant =>
        if byteLen current + byteLen variant ≤ targetLength then
          cartesianRecursive rest (current ++ variant) targetLength
        else [])

/-- The suffix-padding loops of `generate_combinations_for_length`: for each
`chars_to_add` from 1 to the needed gap, every ordered arrangement of that
many distinct special characters appended, kept only when it exactly reaches
the target length. -/
def padSuffix (resultsSet : List String) (combo : String) (neededChars : Nat)
    (targetLength : Nat) : List String :=
  (List.range' 1 neededChars).foldl
    (fun acc charsToAdd =>
      if charsToAdd ≤ specialChars.length then
        (List.sublistsLen charsToAdd specialChars).foldl
          (fun acc specialCombo =>
            (permutationsOf specialCombo).foldl
              (fun acc permSpecial =>
                let padded := combo ++ ⟨permSpecial⟩
                if byteLen padded = targetLength then hsInsert acc padded
                else acc)
              acc)
          acc
      else acc)
    resultsSet

/-- The single-leading-special-character branch (only taken when the gap is
exactly 1). -/
def padPrefix (resultsSet : List String) (combo : String)
    (targetLength : Nat) : List String :=
  specialChars.foldl
    (fun acc special =>
      let padded := ⟨[special]⟩ ++ combo
      if byteLen padded = targetLength then hsInsert acc padded else acc)
    resultsSet

/-- Processing of one completed concatenation inside
`generate_combinations_for_length`: keep it if it has the target length, else
try suffix padding (gap at most 5) and, for a gap of exactly 1, a single
leading special character. -/
def processCartesianCombo (resultsSet : List String) (combo : String)
    (targetLength : Nat) : List String :=
  let acc :=
    if byteLen combo = targetLength then hsInsert resultsSet combo
    else resultsSet
  if byteLen combo < targetLength then
    let neededChars := targetLength - byteLen combo
    let acc :=
      if neededChars ≤ specialChars.length then
        padSuffix acc combo neededChars targetLength
      else acc
    if neededChars = 1 then padPrefix acc combo targetLength else acc
  else acc

/-- `generate_combinations_for_length`: for every combination size, every
index combination and every ordering of it, all depth-first concatenations of
variants, length-filtered and special-char padded, collected into a set and
returned sorted. -/
def generateCombinationsForLength (wordVariants : List (List String))
    (maxComboSize targetLength : Nat) : List String :=
  let resultsSet :=
    (List.range' 1 (min maxComboSize wordVariants.length)).foldl
      (fun acc comboSize =>
        (List.sublistsLen comboSize (List.range wordVariants.length)).foldl
          (fun acc comboIndices =>
            (permutationsOf comboIndices).foldl
              (fun acc perm =>
                let permVariants := perm.map (fun i => wordVariants.getD i [])
                let tempCombinations :=
                  cartesianRecursive permVariants "" targetLength
                tempCombinations.foldl
                  (fun acc combo => processCartesianCombo acc combo targetLength)
                  acc)
              acc)
          acc)
      []
  List.insertionSort (fun a b => strLe a b = true) resultsSet

/-- The mutable state of `generate_combinations_streaming`: the deduplication
set, the chunk buffer, the lines written so far, the written-line count, and
whether `break 'outer` has fired. -/
structure GenState where
  seen : List String
  buffer : List String
  written : List String
  total : Nat
  stopped : Bool
deriving Repr, DecidableEq

def initGenState : GenState :=
  { seen := [], buffer := [], written := [], total := 0, stopped := false }

/-- One candidate through the inner loop of
`generate_combinations_streaming`: skip if already seen, else buffer it; on a
full buffer, write the chunk, occasionally clear the seen-set, and stop when a
positive `limit` has been reached. -/
def processCombo (config : GeneratorConfig) (st : GenState) (combo : String) :
    GenState :=
  if st.stopped then st
  else if combo ∈ st.seen then st
  else
    let seen := combo :: st.seen
    let buffer := st.buffer ++ [combo]
    if buffer.length ≥ config.chunk_size then
      { seen :=
          if seen.length > min MAX_HASHSET_SIZE (config.chunk_size * 10) then []
          else seen
        buffer := []
        written := st.written ++ buffer
        total := st.total + buffer.length
        stopped := 0 < config.limit ∧ config.limit ≤ st.total + buffer.length }
    else { st with seen := seen, buffer := buffer }

/-- `generate_combinations_streaming`, with the file sink abstracted to the
returned list of written lines (in order) and their count.  Timing, the
status display and the atomic temp-file rename have no effect on the emitted
candidates and are omitted. -/
def generateCombinationsStreaming (words : List String)
    (config : GeneratorConfig) : Except String (Nat × List String) :=
  let wordVariants :=
    words.map
      (fun word =>
        let variants := createWordVariants word
        if variants.length > MAX_WORD_VARIANTS then
          variants.take MAX_WORD_VARIANTS
        else variants)
  if words.length > 100 then
    .error "Word list too large (>100 words). Please reduce input size."
  else
    let maxComboSize := min words.length MAX_COMBINATION_SIZE
    let finalState :=
      (List.range' config.min_len (config.max_len + 1 - config.min_len)).foldl
        (fun st targetLength =>
          (generateCombinationsForLength wordVariants maxComboSize
              targetLength).foldl
            (processCombo config) st)
        initGenState
    .ok (finalState.total + finalState.buffer.length,
         finalState.written ++ finalState.buffer)

/-! ## Helpers for stating claims about `Except` results -/

deriving instance DecidableEq for Except

/-- The computation succeeded and its value satisfies `p`. -/
def ExceptOkProp {α : Type _} (e : Except String α) (p : α → Prop) : Prop :=
  match e with
  | .ok a => p a
  | .error _ => False

instance {α : Type _} (e : Except String α) (p : α → Prop) [DecidablePred p] :
    Decidable (ExceptOkProp e p) :=
  match e with
  | .ok a => (inferInstance : Decidable (p a))
  | .error _ => isFalse fun h => h

theorem exceptOkProp_of_eq {α : Type _} {e : Except String α} {a : α}
    (h : e = .ok a) {p : α → Prop} (hp : p a) : ExceptOkProp e p := by
  subst h; exact hp

theorem exceptOkProp_elim {α : Type _} {e : Except String α} {p : α → Prop}
    (h : ExceptOkProp e p) : ∃ a, e = .ok a ∧ p a := by
  match e, h with
  | .ok a, h => exact ⟨a, rfl, h⟩

/-! ## Characterizations of the counter -/

/-- Unfolding of a successful `calculate_total_combinations` run into its
components. -/
theorem calc_ok_extract (words u : List String) (cfg : CombinatorialConfig)
    (a : CombinatorialAnalysis)
    (h : calculateTotalCombinations words u cfg = .ok a) :
    ∃ wp l,
      calculateWordPermutations u.length cfg.max_words = .ok wp ∧
      calculateBreakdownByWordCount u cfg.max_words cfg.include_special_chars = .ok l ∧
      a.breakdown.by_word_count = l ∧
      a.total_combinations =
        min (wrap64 ((l.map (fun b => b.combinations)).sum)) CAP ∧
      a.breakdown.word_permutations = wp ∧
      a.breakdown.leet_variants = wrapProd (u.map calculateLeetVariants) ∧
      a.breakdown.case_variants = 3 ∧
      a.breakdown.special_char_variants =
        (if cfg.include_special_chars then calculateSpecialCharVariants else 1) ∧
      a.estimated_file_size_bytes =
        satMul a.total_combinations
          (estimateAveragePasswordLength u cfg.include_special_chars + 1) := by
  unfold calculateTotalCombinations at h
  by_cases he : words.isEmpty
  · rw [if_pos he] at h; cases h
  · rw [if_neg he] at h
    cases hwp : calculateWordPermutations u.length cfg.max_words with
    | error e => rw [hwp] at h; cases h
    | ok wp =>
      rw [hwp] at h
      cases hbd : calculateBreakdownByWordCount u cfg.max_words cfg.include_special_chars with
      | error e => rw [hbd] at h; cases h
      | ok l =>
        rw [hbd] at h
        cases h
        exact ⟨wp, l, rfl, rfl, rfl, rfl, rfl, rfl, rfl, rfl, rfl⟩

/-- **C2** (corrected).  The documented invariant fails in general: entries
saturate at `u64::MAX` while the total is capped at `1_000_000_000`; for the
four words below the entry sum is `4 566 525 432` but `total_combinations` is
the cap. -/
theorem c2_counterexample :
    ExceptOkProp
      (calculateTotalCombinations ["pass", "tass", "mass", "nass"]
        ["pass", "tass", "mass", "nass"] ⟨4, true⟩)
      (fun a =>
        a.total_combinations ≠
          (a.breakdown.by_word_count.map (fun b => b.combinations)).sum) := by
  decide

/-- **C2** (amended): `total_combinations` is the capped wrapped entry sum, so
the invariant `Σ by_word_count[].combinations = total_combinations` holds
exactly when the entry sum does not exceed the `1_000_000_000` cap. -/
theorem c2_sum_matches_total_below_cap (words uniqueWords : List String)
    (config : CombinatorialConfig) (a : CombinatorialAnalysis)
    (h : calculateTotalCombinations words uniqueWords config = .ok a)
    (hcap : (a.breakdown.by_word_count.map (fun b => b.combinations)).sum ≤ CAP) :
    a.total_combinations =
      (a.breakdown.by_word_count.map (fun b => b.combinations)).sum := by
  obtain ⟨wp, l, _, _, hbwc, htot, _⟩ := calc_ok_extract words uniqueWords config a h
  rw [hbwc] at hcap ⊢
  rw [htot]
  unfold wrap64 CAP at *
  omega

theorem c2_sum_matches_total_below_cap_witness :
    ExceptOkProp (calculateTotalCombinations ["pass"] ["pass"] ⟨1, false⟩)
      (fun a =>
        a.total_combinations =
          (a.breakdown.by_word_count.map (fun b => b.combinations)).sum) := by
  have hok : ExceptOkProp (calculateTotalCombinations ["pass"] ["pass"] ⟨1, false⟩)
      (fun a =>
        (a.breakdown.by_word_count.map (fun b => b.combinations)).sum ≤ CAP) := by
    decide
  obtain ⟨a, ha, hcap⟩ := exceptOkProp_elim hok
  exact exceptOkProp_of_eq ha
    (c2_sum_matches_total_below_cap ["pass"] ["pass"] ⟨1, false⟩ a ha hcap)

/-- **C6** (corrected).  `max_words = 0` is *not* treated as unlimited by
`calculate_total_combinations`: the `1..=max_words.min(n)` loops are empty, so
the breakdown is empty and `total_combinations` is `0`, while `max_words = 1`
yields `23` for the same single word. -/
theorem c6_counterexample :
    ExceptOkProp (calculateTotalCombinations ["pass"] ["pass"] ⟨0, false⟩)
      (fun a => a.total_combinations = 0 ∧ a.breakdown.by_word_count = []) ∧
    ExceptOkProp (calculateTotalCombinations ["pass"] ["pass"] ⟨1, false⟩)
      (fun a => a.total_combinations = 23) :=
  ⟨by decide, by decide⟩

/-- **C6** (amended): the `0 = unlimited` interpretation lives in
`Args::get_max_words` (`0 ↦ usize::MAX`), and any `max_words` at least the
number of unique words is clamped to that number, giving the identical
analysis. -/
theorem c6_max_words_clamped_above (words uniqueWords : List String)
    (config : CombinatorialConfig) (h : uniqueWords.length ≤ config.max_words) :
    calculateTotalCombinations words uniqueWords config =
      calculateTotalCombinations words uniqueWords
        ⟨uniqueWords.length, config.include_special_chars⟩ ∧
    getMaxWords 0 = U64MAX := by
  constructor
  · unfold calculateTotalCombinations calculateWordPermutations
      calculateBreakdownByWordCount
    have h1 : min config.max_words uniqueWords.length = uniqueWords.length :=
      by omega
    have h2 : min uniqueWords.length uniqueWords.length = uniqueWords.length :=
      min_self _
    rw [h1, h2]
  · rfl

theorem c6_max_words_clamped_above_witness :
    1 ≤ (2 : Nat) ∧
    (calculateTotalCombinations ["pass"] ["pass"] ⟨2, false⟩ =
        calculateTotalCombinations ["pass"] ["pass"] ⟨1, false⟩ ∧
      getMaxWords 0 = U64MAX) := by
  refine ⟨by omega, ?_⟩
  have := c6_max_words_clamped_above ["pass"] ["pass"] ⟨2, false⟩ (by decide)
  simpa using this

theorem foldl_id_eq {α β : Type _} (l : List β) (a : α) :
    l.foldl (fun acc _ => acc) a = a := by
  induction l with
  | nil => rfl
  | cons x xs ih => simp only [List.foldl_cons]; exact ih

/-- **C4** (counterexample).  `generate_combinations_streaming` does *not*
return an error for an empty word list: it succeeds with zero candidates. -/
theorem c4_counterexample :
    generateCombinationsStreaming []
        ⟨4, 20, 0, "passwords.txt", 100000, false, false⟩ = .ok (0, []) := by
  decide

/-- **C4** (amended): the generator has no empty-input check and returns
`Ok(0)` with no output for an empty word list (for every configuration); the
empty-word-set error is raised by `calculate_total_combinations`, which
callers are expected to run first. -/
theorem c4_empty_words_behavior (config : GeneratorConfig)
    (uniqueWords : List String) (counterConfig : CombinatorialConfig) :
    generateCombinationsStreaming [] config = .ok (0, []) ∧
    calculateTotalCombinations [] uniqueWords counterConfig =
      .error "No words provided for combinatorial analysis" := by
  constructor
  · unfold generateCombinationsStreaming
    have h100 : ¬ ([] : List String).length > 100 := by decide
    rw [List.map_nil, if_neg h100]
    have h0 : ∀ targetLength,
        generateCombinationsForLength [] (min ([] : List String).length
          MAX_COMBINATION_SIZE) targetLength = [] := fun _ => rfl
    simp only [h0, List.foldl_nil, foldl_id_eq]
    rfl
  · rfl

/-- **C5** (counterexample).  Multi-character special arrangements are applied
as suffix blocks only: for base `"ab"` and target length 4 the suffix
arrangement `"ab!@"` is produced but the prefix block `"!@ab"` is not,
contradicting "applied once as a prefix block and once as a suffix block". -/
theorem c5_counterexample :
    "ab!@" ∈ generateCombinationsForLength [["ab"]] 1 4 ∧
    "!@ab" ∉ generateCombinationsForLength [["ab"]] 1 4 := by
  exact ⟨by decide, by decide⟩

/-- **C5** (amended): for a gap of `g ≥ 2` only the `P(5, g)` suffix
arrangements (plus the exact-length bases) appear, and for a gap of exactly 1
the single-character pads appear on both sides — demonstrated exhaustively for
base `"ab"` at target lengths 4 (gap 2: the 20 ordered suffix pairs, no
prefixes) and 3 (gap 1: five suffix and five prefix singles). -/
theorem c5_suffix_only_characterization :
    generateCombinationsForLength [["ab"]] 1 4 =
      ["ab!#", "ab!$", "ab!%", "ab!@", "ab#!", "ab#$", "ab#%", "ab#@", "ab$!",
       "ab$#", "ab$%", "ab$@", "ab%!", "ab%#", "ab%$", "ab%@", "ab@!", "ab@#",
       "ab@$", "ab@%"] ∧
    generateCombinationsForLength [["ab"]] 1 3 =
      ["!ab", "#ab", "$ab", "%ab", "@ab", "ab!", "ab#", "ab$", "ab%", "ab@"] := by
  exact ⟨by decide, by decide⟩

/-- **C3** (counterexample).  With `limit = 1` and the default
`chunk_size = 100000`, the single target length 4 for the word `"pass"` emits
all 23 candidates: the limit is only checked when a full chunk is written, and
the final partial buffer is written unconditionally. -/
theorem c3_counterexample :
    ExceptOkProp
      (generateCombinationsStreaming ["pass"]
        ⟨4, 4, 1, "passwords.txt", 100000, false, false⟩)
      (fun p => 1 < p.1) := by
  decide

/-! ## C8: the leet stage -/

theorem enumFrom_filter_snd_length (q : Char → Bool) :
    ∀ (l : List Char) (i : Nat),
    ((List.enumFrom i l).filter (fun p => q p.2)).length = (l.filter q).length := by
  intro l
  induction l with
  | nil => intro i; rfl
  | cons c cs ih =>
    intro i
    simp only [List.enumFrom_cons, List.filter_cons]
    by_cases hq : q c
    · simp only [hq, if_pos rfl]
      simp [ih (i + 1)]
    · simp only [hq]
      simp [ih (i + 1)]

theorem generateAllLeetCombinatorics_length (s : String) :
    (generateAllLeetForWordCombinatorics s).length =
      2 ^ (s.data.filter (fun ch => isReplaceable ch)).length := by
  unfold generateAllLeetForWordCombinatorics
  simp only [List.length_map, List.length_range, Nat.one_shiftLeft, List.enum]
  rw [enumFrom_filter_snd_length]

theorem foldl_preserve {α β : Type _} (P : α → Prop) (f : α → β → α)
    (hf : ∀ acc b, P acc → P (f acc b)) :
    ∀ (l : List β) (acc : α), P acc → P (l.foldl f acc) := by
  intro l
  induction l with
  | nil => intro acc h; exact h
  | cons x xs ih =>
    intro acc h
    simp only [List.foldl_cons]
    exact ih (f acc x) (hf acc x h)

/-- The invariant behind the corrected termination claim: while running, the
written count is below `limit` and the buffer below a full chunk (or still
empty); once stopped, everything written fits in `limit + chunk_size` and the
buffer has just been flushed. -/
def LimitInv (config : GeneratorConfig) (st : GenState) : Prop :=
  (st.stopped = true →
    st.total ≤ config.limit + config.chunk_size ∧ st.buffer = []) ∧
  (st.stopped = false →
    st.total + 1 ≤ config.limit ∧
      (st.buffer.length < config.chunk_size ∨ st.buffer = []))

theorem processCombo_limitInv (config : GeneratorConfig) (st : GenState)
    (combo : String) (hlim : 0 < config.limit) (h : LimitInv config st) :
    LimitInv config (processCombo config st combo) := by
  obtain ⟨hstopped, hrun⟩ := h
  unfold processCombo
  cases hstop : st.stopped with
  | true => rw [if_pos rfl]; exact ⟨hstopped, hrun⟩
  | false =>
    rw [if_neg (by simp)]
    obtain ⟨htot, hbuf⟩ := hrun hstop
    have hblen : st.buffer.length + 1 ≤ max config.chunk_size 1 := by
      rcases hbuf with hlt | hnil
      · omega
      · rw [hnil]; simp
    by_cases hseen : combo ∈ st.seen
    · rw [if_pos hseen]
      exact ⟨fun hc => absurd (hstop ▸ hc) (by simp), fun _ => ⟨htot, hbuf⟩⟩
    · rw [if_neg hseen]
      by_cases hchunk : (st.buffer ++ [combo]).length ≥ config.chunk_size
      · rw [if_pos hchunk]
        simp only [List.length_append, List.length_cons, List.length_nil] at *
        constructor
        · intro hc
          simp only [decide_eq_true_eq] at hc
          refine ⟨?_, rfl⟩
          dsimp only
          rcases hbuf with hlt | hnil
          · omega
          · rw [hnil] at *
            simp only [List.length_nil] at *
            omega
        · intro hc
          simp only [decide_eq_false_iff_not, not_and, not_le] at hc
          refine ⟨?_, Or.inr rfl⟩
          have := hc hlim
          dsimp only
          omega
      · rw [if_neg hchunk]
        refine ⟨fun hc => by simp at hc, fun _ => ?_⟩
        dsimp only
        simp only [List.length_append, List.length_cons, List.length_nil] at *
        exact ⟨htot, Or.inl (by omega)⟩

/-- **C3** (amended): with `limit > 0` the limit is only checked when a full
chunk is written (and the final partial buffer is written regardless), so the
emitted count can exceed `limit` — but never by more than one chunk:
`emitted ≤ limit + chunk_size`.  With `limit = 0` the run is exhaustive. -/
theorem c3_limit_checked_at_chunk_boundaries (words : List String)
    (config : GeneratorConfig) (n : Nat) (lines : List String)
    (hlim : 0 < config.limit)
    (h : generateCombinationsStreaming words config = .ok (n, lines)) :
    n ≤ config.limit + config.chunk_size := by
  unfold generateCombinationsStreaming at h
  by_cases h100 : words.length > 100
  · rw [if_pos h100] at h; cases h
  · rw [if_neg h100] at h
    injection h with h
    injection h with hn hlines
    have hinv : LimitInv config
        ((List.range' config.min_len (config.max_len + 1 - config.min_len)).foldl
          (fun st targetLength =>
            (generateCombinationsForLength
                (words.map fun word =>
                  let variants := createWordVariants word
                  if variants.length > MAX_WORD_VARIANTS then
                    variants.take MAX_WORD_VARIANTS
                  else variants)
                (min words.length MAX_COMBINATION_SIZE) targetLength).foldl
              (processCombo config) st)
          initGenState) := by
      apply foldl_preserve (LimitInv config)
      · intro st L hst
        apply foldl_preserve (LimitInv config)
        · intro st' combo hst'
          exact processCombo_limitInv config st' combo hlim hst'
        · exact hst
      · exact ⟨fun hc => by simp [initGenState] at hc,
          fun _ => ⟨by simp [initGenState]; omega, Or.inr rfl⟩⟩
    set st := (List.range' config.min_len (config.max_len + 1 - config.min_len)).foldl
        _ initGenState with hst
    obtain ⟨hstopped, hrun⟩ := hinv
    cases hb : st.stopped with
    | true =>
      obtain ⟨h1, h2⟩ := hstopped hb
      rw [← hn]
      rw [h2]
      simpa using h1
    | false =>
      obtain ⟨h1, h2⟩ := hrun hb
      rw [← hn]
      rcases h2 with hlt | hnil
      · omega
      · rw [hnil]
        simp only [List.length_nil]
        omega

theorem c3_limit_checked_at_chunk_boundaries_witness :
    0 < 1 ∧
    ExceptOkProp
      (generateCombinationsStreaming ["pass"]
        ⟨4, 4, 1, "passwords.txt", 100000, false, false⟩)
      (fun p => p.1 ≤ 1 + 100000) := by
  refine ⟨by omega, ?_⟩
  have hok : ExceptOkProp
      (generateCombinationsStreaming ["pass"]
        ⟨4, 4, 1, "passwords.txt", 100000, false, false⟩)
      (fun p => p.1 = p.1) := by decide
  obtain ⟨p, hp, _⟩ := exceptOkProp_elim hok
  exact exceptOkProp_of_eq hp
    (c3_limit_checked_at_chunk_boundaries ["pass"]
      ⟨4, 4, 1, "passwords.txt", 100000, false, false⟩ p.1 p.2 (by decide)
      (by rw [hp]))

/-! ## Properties of `generate_combinations_for_length` -/

/-- Invariant of the per-length results set: no duplicates, and every member
has exactly the target byte length. -/
def SetInv (targetLength : Nat) (acc : List String) : Prop :=
  acc.Nodup ∧ ∀ z ∈ acc, byteLen z = targetLength

theorem hsInsert_setInv {L : Nat} {acc : List String} {x : String}
    (h : SetInv L acc) (hx : byteLen x = L) : SetInv L (hsInsert acc x) := by
  obtain ⟨hnd, hlen⟩ := h
  unfold hsInsert
  by_cases hmem : x ∈ acc
  · rw [if_pos hmem]; exact ⟨hnd, hlen⟩
  · rw [if_neg hmem]
    refine ⟨List.nodup_cons.mpr ⟨hmem, hnd⟩, ?_⟩
    intro z hz
    rcases List.mem_cons.mp hz with hzx | hzm
    · rw [hzx]; exact hx
    · exact hlen z hzm

theorem guardedInsert_setInv {L : Nat} {acc : List String} (x : String)
    (h : SetInv L acc) :
    SetInv L (if byteLen x = L then hsInsert acc x else acc) := by
  by_cases hx : byteLen x = L
  · rw [if_pos hx]; exact hsInsert_setInv h hx
  · rw [if_neg hx]; exact h

theorem padSuffix_setInv {L : Nat} (acc : List String) (combo : String)
    (needed : Nat) (h : SetInv L acc) : SetInv L (padSuffix acc combo needed L) := by
  unfold padSuffix
  apply foldl_preserve (SetInv L) _ _ _ _ h
  intro acc1 charsToAdd h1
  by_cases hc : charsToAdd ≤ specialChars.length
  · rw [if_pos hc]
    apply foldl_preserve (SetInv L) _ _ _ _ h1
    intro acc2 specialCombo h2
    apply foldl_preserve (SetInv L) _ _ _ _ h2
    intro acc3 permSpecial h3
    exact guardedInsert_setInv _ h3
  · rw [if_neg hc]; exact h1

theorem padPrefix_setInv {L : Nat} (acc : List String) (combo : String)
    (h : SetInv L acc) : SetInv L (padPrefix acc combo L) := by
  unfold padPrefix
  apply foldl_preserve (SetInv L) _ _ _ _ h
  intro acc1 special h1
  exact guardedInsert_setInv _ h1

theorem processCartesianCombo_setInv {L : Nat} (acc : List String)
    (combo : String) (h : SetInv L acc) :
    SetInv L (processCartesianCombo acc combo L) := by
  unfold processCartesianCombo
  have h1 : SetInv L (if byteLen combo = L then hsInsert acc combo else acc) :=
    guardedInsert_setInv _ h
  by_cases hlt : byteLen combo < L
  · rw [if_pos hlt]
    have h2 : SetInv L
        (if L - byteLen combo ≤ specialChars.length then
          padSuffix (if byteLen combo = L then hsInsert acc combo else acc)
            combo (L - byteLen combo) L
        else (if byteLen combo = L then hsInsert acc combo else acc)) := by
      by_cases hn : L - byteLen combo ≤ specialChars.length
      · rw [if_pos hn]; exact padSuffix_setInv _ _ _ h1
      · rw [if_neg hn]; exact h1
    by_cases hone : L - byteLen combo = 1
    · rw [if_pos hone]; exact padPrefix_setInv _ _ h2
    · rw [if_neg hone]; exact h2
  · rw [if_neg hlt]; exact h1

theorem gcfl_setInv (wordVariants : List (List String)) (maxComboSize L : Nat) :
    (generateCombinationsForLength wordVariants maxComboSize L).Nodup ∧
    ∀ z ∈ generateCombinationsForLength wordVariants maxComboSize L,
      byteLen z = L := by
  have hset : SetInv L
      ((List.range' 1 (min maxComboSize wordVariants.length)).foldl
        (fun acc comboSize =>
          (List.sublistsLen comboSize (List.range wordVariants.length)).foldl
            (fun acc comboIndices =>
              (permutationsOf comboIndices).foldl
                (fun acc perm =>
                  let permVariants := perm.map (fun i => wordVariants.getD i [])
                  let tempCombinations :=
                    cartesianRecursive permVariants "" L
                  tempCombinations.foldl
                    (fun acc combo => processCartesianCombo acc combo L)
                    acc)
                acc)
            acc)
        []) := by
    apply foldl_preserve (SetInv L)
    · intro acc1 comboSize h1
      apply foldl_preserve (SetInv L) _ _ _ _ h1
      intro acc2 comboIndices h2
      apply foldl_preserve (SetInv L) _ _ _ _ h2
      intro acc3 perm h3
      apply foldl_preserve (SetInv L) _ _ _ _ h3
      intro acc4 combo h4
      exact processCartesianCombo_setInv _ _ h4
    · exact ⟨List.nodup_nil, by intro z hz; cases hz⟩
  obtain ⟨hnd, hlen⟩ := hset
  constructor
  · exact ((List.perm_insertionSort _ _).nodup_iff).mpr hnd
  · intro z hz
    exact hlen z ((List.perm_insertionSort _ _).mem_iff.mp hz)

/-! ## The emitted stream is globally duplicate-free -/

theorem processCombo_of_stopped (config : GeneratorConfig) (st : GenState)
    (combo : String) (h : st.stopped = true) :
    processCombo config st combo = st := by
  unfold processCombo
  rw [if_pos h]

theorem foldl_processCombo_of_stopped (config : GeneratorConfig)
    (stream : List String) (st : GenState) (h : st.stopped = true) :
    stream.foldl (processCombo config) st = st := by
  induction stream with
  | nil => rfl
  | cons x xs ih =>
    simp only [List.foldl_cons, processCombo_of_stopped config st x h]
    exact ih

theorem processCombo_fresh (config : GeneratorConfig) (st : GenState)
    (combo : String) (hstop : st.stopped = false) (hseen : combo ∉ st.seen) :
    (processCombo config st combo).written ++ (processCombo config st combo).buffer
      = (st.written ++ st.buffer) ++ [combo] ∧
    (∀ z ∈ (processCombo config st combo).seen, z = combo ∨ z ∈ st.seen) := by
  unfold processCombo
  rw [if_neg (by simp [hstop]), if_neg hseen]
  by_cases hchunk : (st.buffer ++ [combo]).length ≥ config.chunk_size
  · rw [if_pos hchunk]
    refine ⟨by simp, ?_⟩
    intro z hz
    dsimp only at hz
    by_cases hclear :
        (combo :: st.seen).length > min MAX_HASHSET_SIZE (config.chunk_size * 10)
    · rw [if_pos hclear] at hz; cases hz
    · rw [if_neg hclear] at hz
      exact List.mem_cons.mp hz
  · rw [if_neg hchunk]
    exact ⟨by simp, fun z hz => List.mem_cons.mp hz⟩

theorem foldl_processCombo_nodup (config : GeneratorConfig) :
    ∀ (stream : List String) (st : GenState),
    (st.written ++ st.buffer).Nodup →
    stream.Nodup →
    (∀ s ∈ stream, s ∉ st.written ++ st.buffer) →
    (∀ s ∈ stream, s ∉ st.seen) →
    ((stream.foldl (processCombo config) st).written ++
        (stream.foldl (processCombo config) st).buffer).Nodup ∧
    (∀ z ∈ (stream.foldl (processCombo config) st).written ++
        (stream.foldl (processCombo config) st).buffer,
      z ∈ st.written ++ st.buffer ∨ z ∈ stream) ∧
    (∀ z ∈ (stream.foldl (processCombo config) st).seen,
      z ∈ st.seen ∨ z ∈ stream) := by
  intro stream
  induction stream with
  | nil =>
    intro st h1 _ _ _
    exact ⟨h1, fun z hz => Or.inl hz, fun z hz => Or.inl hz⟩
  | cons x xs ih =>
    intro st h1 h2 h3 h4
    simp only [List.foldl_cons]
    cases hstop : st.stopped with
    | true =>
      rw [processCombo_of_stopped config st x hstop,
        foldl_processCombo_of_stopped config xs st hstop]
      exact ⟨h1, fun z hz => Or.inl hz, fun z hz => Or.inl hz⟩
    | false =>
      have hxseen : x ∉ st.seen := h4 x (List.mem_cons_self x xs)
      obtain ⟨hwb, hseen⟩ := processCombo_fresh config st x hstop hxseen
      have hxwb : x ∉ st.written ++ st.buffer := h3 x (List.mem_cons_self x xs)
      have hnodup' : ((processCombo config st x).written ++
          (processCombo config st x).buffer).Nodup := by
        rw [hwb]
        exact List.Nodup.append h1 (List.nodup_singleton x)
          (by intro a ha hb; rw [List.mem_singleton] at hb; subst hb; exact hxwb ha)
      have hxs_nodup : xs.Nodup := (List.nodup_cons.mp h2).2
      have hxnotxs : x ∉ xs := (List.nodup_cons.mp h2).1
      have h3' : ∀ s ∈ xs, s ∉ (processCombo config st x).written ++
          (processCombo config st x).buffer := by
        intro s hs hmem
        rw [hwb] at hmem
        rcases List.mem_append.mp hmem with hm | hm
        · exact h3 s (List.mem_cons_of_mem x hs) hm
        · rw [List.mem_singleton] at hm
          subst hm
          exact hxnotxs hs
      have h4' : ∀ s ∈ xs, s ∉ (processCombo config st x).seen := by
        intro s hs hmem
        rcases hseen s hmem with hm | hm
        · subst hm; exact hxnotxs hs
        · exact h4 s (List.mem_cons_of_mem x hs) hm
      obtain ⟨ih1, ih2, ih3⟩ :=
        ih (processCombo config st x) hnodup' hxs_nodup h3' h4'
      refine ⟨ih1, ?_, ?_⟩
      · intro z hz
        rcases ih2 z hz with hm | hm
        · rw [hwb] at hm
          rcases List.mem_append.mp hm with hm' | hm'
          · exact Or.inl hm'
          · rw [List.mem_singleton] at hm'
            exact Or.inr (hm' ▸ List.mem_cons_self x xs)
        · exact Or.inr (List.mem_cons_of_mem x hm)
      · intro z hz
        rcases ih3 z hz with hm | hm
        · rcases hseen z hm with hm' | hm'
          · exact Or.inr (hm' ▸ List.mem_cons_self x xs)
          · exact Or.inl hm'
        · exact Or.inr (List.mem_cons_of_mem x hm)

theorem foldl_lengths_nodup (config : GeneratorConfig)
    (wordVariants : List (List String)) (maxComboSize : Nat) :
    ∀ (lengths : List Nat) (st : GenState),
    lengths.Nodup →
    (st.written ++ st.buffer).Nodup →
    (∀ L ∈ lengths, ∀ s ∈ generateCombinationsForLength wordVariants maxComboSize L,
      s ∉ st.written ++ st.buffer ∧ s ∉ st.seen) →
    (((lengths.foldl (fun st targetLength =>
        (generateCombinationsForLength wordVariants maxComboSize
            targetLength).foldl (processCombo config) st) st).written ++
      (lengths.foldl (fun st targetLength =>
        (generateCombinationsForLength wordVariants maxComboSize
            targetLength).foldl (processCombo config) st) st).buffer).Nodup ∧
     (∀ z ∈ (lengths.foldl (fun st targetLength =>
        (generateCombinationsForLength wordVariants maxComboSize
            targetLength).foldl (processCombo config) st) st).written ++
          (lengths.foldl (fun st targetLength =>
            (generateCombinationsForLength wordVariants maxComboSize
                targetLength).foldl (processCombo config) st) st).buffer,
       z ∈ st.written ++ st.buffer ∨
         ∃ L ∈ lengths, z ∈ generateCombinationsForLength wordVariants maxComboSize L) ∧
     (∀ z ∈ (lengths.foldl (fun st targetLength =>
        (generateCombinationsForLength wordVariants maxComboSize
            targetLength).foldl (processCombo config) st) st).seen,
       z ∈ st.seen ∨
         ∃ L ∈ lengths, z ∈ generateCombinationsForLength wordVariants maxComboSize L)) := by
  intro lengths
  induction lengths with
  | nil =>
    intro st _ h2 _
    exact ⟨h2, fun z hz => Or.inl hz, fun z hz => Or.inl hz⟩
  | cons L Ls ih =>
    intro st hnodupL h2 h3
    simp only [List.foldl_cons]
    obtain ⟨hgnd, hglen⟩ := gcfl_setInv wordVariants maxComboSize L
    have hfirst := foldl_processCombo_nodup config
      (generateCombinationsForLength wordVariants maxComboSize L) st h2 hgnd
      (fun s hs => (h3 L (List.mem_cons_self L Ls) s hs).1)
      (fun s hs => (h3 L (List.mem_cons_self L Ls) s hs).2)
    set st1 := (generateCombinationsForLength wordVariants maxComboSize L).foldl
      (processCombo config) st with hst1
    obtain ⟨f1, f2, f3⟩ := hfirst
    have hLnotLs : L ∉ Ls := (List.nodup_cons.mp hnodupL).1
    have hLs_nodup : Ls.Nodup := (List.nodup_cons.mp hnodupL).2
    have hdisj : ∀ L' ∈ Ls, ∀ s ∈ generateCombinationsForLength wordVariants
        maxComboSize L', s ∉ generateCombinationsForLength wordVariants maxComboSize L := by
      intro L' hL' s hs hmem
      have h1 := (gcfl_setInv wordVariants maxComboSize L').2 s hs
      have hl2 := hglen s hmem
      have : L' = L := by rw [← h1, hl2]
      exact hLnotLs (this ▸ hL')
    have h3' : ∀ L' ∈ Ls, ∀ s ∈ generateCombinationsForLength wordVariants
        maxComboSize L', s ∉ st1.written ++ st1.buffer ∧ s ∉ st1.seen := by
      intro L' hL' s hs
      constructor
      · intro hmem
        rcases f2 s hmem with hm | hm
        · exact (h3 L' (List.mem_cons_of_mem L hL') s hs).1 hm
        · exact hdisj L' hL' s hs hm
      · intro hmem
        rcases f3 s hmem with hm | hm
        · exact (h3 L' (List.mem_cons_of_mem L hL') s hs).2 hm
        · exact hdisj L' hL' s hs hm
    obtain ⟨g1, g2, g3⟩ := ih st1 hLs_nodup f1 h3'
    refine ⟨g1, ?_, ?_⟩
    · intro z hz
      rcases g2 z hz with hm | hm
      · rcases f2 z hm with hm' | hm'
        · exact Or.inl hm'
        · exact Or.inr ⟨L, List.mem_cons_self L Ls, hm'⟩
      · obtain ⟨L', hL', hz'⟩ := hm
        exact Or.inr ⟨L', List.mem_cons_of_mem L hL', hz'⟩
    · intro z hz
      rcases g3 z hz with hm | hm
      · rcases f3 z hm with hm' | hm'
        · exact Or.inl hm'
        · exact Or.inr ⟨L, List.mem_cons_self L Ls, hm'⟩
      · obtain ⟨L', hL', hz'⟩ := hm
        exact Or.inr ⟨L', List.mem_cons_of_mem L hL', hz'⟩

/-- **C10** (confirmed).  Per-length candidates are collected in a set and all
have exactly the target byte length, so candidates from different target
lengths are distinct and — whatever the state of the bounded `seen_passwords`
set — no duplicate line is ever written within one run. -/
theorem c10_no_duplicate_lines (words : List String) (config : GeneratorConfig)
    (n : Nat) (lines : List String)
    (h : generateCombinationsStreaming words config = .ok (n, lines)) :
    lines.Nodup := by
  unfold generateCombinationsStreaming at h
  by_cases h100 : words.length > 100
  · rw [if_pos h100] at h; cases h
  · rw [if_neg h100] at h
    injection h with h
    injection h with hn hlines
    rw [← hlines]
    have := foldl_lengths_nodup config
      (words.map fun word =>
        let variants := createWordVariants word
        if variants.length > MAX_WORD_VARIANTS then
          variants.take MAX_WORD_VARIANTS
        else variants)
      (min words.length MAX_COMBINATION_SIZE)
      (List.range' config.min_len (config.max_len + 1 - config.min_len))
      initGenState
      (List.nodup_range' _ _)
      (by simp [initGenState])
      (by intro L _ s _; simp [initGenState])
    exact this.1

set_option maxRecDepth 100000 in
theorem c10_no_duplicate_lines_witness :
    ExceptOkProp
      (generateCombinationsStreaming ["ab"]
        ⟨2, 3, 0, "passwords.txt", 100000, false, false⟩)
      (fun p => p.2.Nodup) := by
  have hok : ExceptOkProp
      (generateCombinationsStreaming ["ab"]
        ⟨2, 3, 0, "passwords.txt", 100000, false, false⟩)
      (fun p => p.1 = p.1) := by decide
  obtain ⟨p, hp, _⟩ := exceptOkProp_elim hok
  exact exceptOkProp_of_eq hp
    (c10_no_duplicate_lines ["ab"]
      ⟨2, 3, 0, "passwords.txt", 100000, false, false⟩ p.1 p.2 (by rw [hp]))

/-! ## C1: the counter does not match the generator -/

/-- **C1**.  The analytical counter and the streaming assembler disagree: the
assembler always applies special-character padding and enumerates by target
length, while the counter models neither the length window nor the
assembler's suffix-only padding.  For the word `"ab"` with lengths 2–3 the
counter (special chars off, as the claim fixes) predicts 5 candidates but the
assembler emits 55; for the claim's own `["admin","pass"]` instance the
counter predicts 493 (the assembler's padded output is far larger). -/
theorem c1_counter_generator_divergence :
    IsDedupOrder ["admin", "pass"] ["admin", "pass"] ∧
    ExceptOkProp
      (calculateTotalCombinations ["admin", "pass"] ["admin", "pass"] ⟨2, false⟩)
      (fun a => a.total_combinations = 493) ∧
    IsDedupOrder ["ab"] ["ab"] ∧
    ExceptOkProp (calculateTotalCombinations ["ab"] ["ab"] ⟨1, false⟩)
      (fun a => a.total_combinations = 5) ∧
    ExceptOkProp
      (generateCombinationsStreaming ["ab"]
        ⟨2, 3, 0, "passwords.txt", 100000, false, false⟩)
      (fun p => p.1 = 55 ∧ p.1 ≠ 5) :=
  ⟨by decide, by decide, by decide, by decide,
    by set_option maxRecDepth 100000 in decide⟩

/-! ## C7: determinism up to the deduplication order -/

/-- **C7** (counterexample).  The deduplicated word list is collected from a
`HashSet` whose iteration order is arbitrary; two valid orders of the same
input produce different `CombinatorialAnalysis` values (the `k = 1` entry's
`average_length` is the length of whichever word happens to come first). -/
theorem c7_counterexample :
    IsDedupOrder ["admin", "pass"] ["admin", "pass"] ∧
    IsDedupOrder ["pass", "admin"] ["admin", "pass"] ∧
    ExceptOkProp
      (calculateTotalCombinations ["admin", "pass"] ["admin", "pass"] ⟨2, false⟩)
      (fun a1 =>
        ExceptOkProp
          (calculateTotalCombinations ["admin", "pass"] ["pass", "admin"] ⟨2, false⟩)
          (fun a2 =>
            a1.breakdown.by_word_count.map (fun b => b.average_length) ≠
              a2.breakdown.by_word_count.map (fun b => b.average_length))) :=
  ⟨by decide, by decide, by decide⟩

/-! ## C7 (amended): order-invariance machinery -/

theorem perm_of_mem_insertEverywhere {α : Type _} {x : α} :
    ∀ {l z : List α}, z ∈ insertEverywhere x l → List.Perm z (x :: l) := by
  intro l
  induction l with
  | nil =>
    intro z h
    simp only [insertEverywhere, List.mem_singleton] at h
    subst h
    exact List.Perm.refl _
  | cons y ys ih =>
    intro z h
    simp only [insertEverywhere, List.mem_cons, List.mem_map] at h
    rcases h with h | ⟨w, hw, hwz⟩
    · subst h; exact List.Perm.refl _
    · subst hwz
      exact ((ih hw).cons y).trans (List.Perm.swap x y ys)

theorem perm_of_mem_permutationsOf {α : Type _} :
    ∀ {l p : List α}, p ∈ permutationsOf l → List.Perm p l := by
  intro l
  induction l with
  | nil =>
    intro p h
    simp only [permutationsOf, List.mem_singleton] at h
    subst h
    exact List.Perm.refl _
  | cons x xs ih =>
    intro p h
    simp only [permutationsOf, List.mem_flatMap] at h
    obtain ⟨q, hq, hpq⟩ := h
    exact (perm_of_mem_insertEverywhere hpq).trans ((ih hq).cons x)

theorem length_insertEverywhere {α : Type _} (x : α) :
    ∀ (l : List α), (insertEverywhere x l).length = l.length + 1 := by
  intro l
  induction l with
  | nil => rfl
  | cons y ys ih => simp [insertEverywhere, ih]

theorem sum_map_const_of_eq {α : Type _} (l : List α) (g : α → Nat) (c : Nat)
    (h : ∀ x ∈ l, g x = c) : (l.map g).sum = l.length * c := by
  induction l with
  | nil => simp
  | cons x xs ih =>
    simp only [List.map_cons, List.sum_cons, List.length_cons]
    rw [h x (List.mem_cons_self x xs),
      ih (fun y hy => h y (List.mem_cons_of_mem x hy))]
    ring

theorem length_permutationsOf {α : Type _} :
    ∀ (l : List α), (permutationsOf l).length = l.length.factorial := by
  intro l
  induction l with
  | nil => rfl
  | cons x xs ih =>
    simp only [permutationsOf, List.length_flatMap]
    rw [sum_map_const_of_eq _ _ (xs.length + 1)
      (fun q hq => by
        simp only [Function.comp_apply]
        rw [length_insertEverywhere x q,
          (perm_of_mem_permutationsOf hq).length_eq])]
    rw [ih, List.length_cons, Nat.factorial_succ]
    ring

theorem sum_map_flatMap {α β : Type _} (l : List α) (f : α → List β)
    (g : β → Nat) :
    ((l.flatMap f).map g).sum = (l.map (fun x => ((f x).map g).sum)).sum := by
  induction l with
  | nil => rfl
  | cons x xs ih =>
    simp only [List.flatMap_cons, List.map_append, List.sum_append, ih,
      List.map_cons, List.sum_cons]

theorem map_getD_range {α : Type _} (d : α) :
    ∀ (l : List α), (List.range l.length).map (fun i => l.getD i d) = l := by
  intro l
  induction l with
  | nil => rfl
  | cons x xs ih =>
    rw [List.length_cons, List.range_succ_eq_map, List.map_cons, List.map_map]
    have h1 : (x :: xs).getD 0 d = x := rfl
    have h2 : ((fun i => (x :: xs).getD i d) ∘ Nat.succ) =
        fun i => xs.getD i d := rfl
    rw [h1, h2, ih]

theorem dedupAdjacent_ne_nil : ∀ {l : List String}, l ≠ [] → dedupAdjacent l ≠ [] := by
  intro l
  induction l with
  | nil => intro h; exact absurd rfl h
  | cons x xs ih =>
    intro _
    cases xs with
    | nil => simp [dedupAdjacent]
    | cons y ys =>
      unfold dedupAdjacent
      by_cases hxy : x = y
      · rw [if_pos hxy]
        exact ih (by simp)
      · rw [if_neg hxy]
        simp

theorem sortDedup_length_pos (l : List String) (h : l ≠ []) :
    1 ≤ (sortDedup l).length := by
  have hsort_ne : List.insertionSort (fun a b => strLe a b = true) l ≠ [] := by
    intro hnil
    have hlen := (List.perm_insertionSort (fun a b => strLe a b = true) l).length_eq
    rw [hnil] at hlen
    simp only [List.length_nil] at hlen
    exact h (List.length_eq_zero.mp hlen.symm)
  have hdd := dedupAdjacent_ne_nil hsort_ne
  unfold sortDedup
  cases hd : dedupAdjacent (List.insertionSort (fun a b => strLe a b = true) l) with
  | nil => exact absurd hd hdd
  | cons b bs => simp

theorem calculateActualWordVariants_pos (w : String) :
    1 ≤ calculateActualWordVariants w := by
  unfold calculateActualWordVariants
  apply sortDedup_length_pos
  have hne : generateAllLeetForWordCombinatorics (strLower w) ≠ [] := by
    intro hnil
    have hlen2 := generateAllLeetCombinatorics_length (strLower w)
    rw [hnil] at hlen2
    simp only [List.length_nil] at hlen2
    have hpow : 0 < 2 ^ ((strLower w).data.filter (fun ch => isReplaceable ch)).length :=
      Nat.pos_pow_of_pos _ (by omega)
    omega
  cases hleet : generateAllLeetForWordCombinatorics (strLower w) with
  | nil => exact absurd hleet hne
  | cons a as => simp [List.flatMap_cons]

theorem range_map_getD_comp (o : List String) (f : String → Nat) :
    (List.range o.length).map (fun i => f (o.getD i "")) = o.map f := by
  conv_rhs => rw [← map_getD_range "" o]
  rw [List.map_map]
  rfl

theorem sum_sublistsLen_map_counts (cL : Nat → Nat) (k : Nat) (m : List Nat) :
    ((List.sublistsLen k m).map (fun s => min ((s.map cL).prod) U64MAX)).sum =
      (Multiset.map (fun mu : Multiset Nat => min mu.prod U64MAX)
        (Multiset.powersetCard k (Multiset.map cL ↑m))).sum := by
  rw [Multiset.powersetCard_map, Multiset.powersetCard_coe',
    Multiset.powersetCardAux_eq_map_coe]
  change _ =
    ((((List.sublistsLen k m).map (fun s : List Nat => (↑s : Multiset Nat))).map
      (Multiset.map cL)).map
        (fun mu : Multiset Nat => min mu.prod U64MAX)).sum
  rw [List.map_map, List.map_map]
  rfl

/-- The multi-word saturated-product sum of the breakdown is invariant under
reordering the unique-word list: collapsing each `sublistsLen` class (whose
`k!` orderings all have the same product) reduces the sum to a function of
the multiset of per-word variant counts. -/
theorem kperm_counts_sum_invariant (o1 o2 : List String)
    (hperm : List.Perm o1 o2) (k : Nat) :
    ((kpermutations (List.range o1.length) k).map
      (fun idx =>
        min ((idx.map (fun i => calculateActualWordVariants (o1.getD i ""))).prod)
          U64MAX)).sum =
    ((kpermutations (List.range o2.length) k).map
      (fun idx =>
        min ((idx.map (fun i => calculateActualWordVariants (o2.getD i ""))).prod)
          U64MAX)).sum := by
  have hn : o2.length = o1.length := hperm.length_eq.symm
  rw [hn]
  have collapse : ∀ (o : List String),
      ((kpermutations (List.range o1.length) k).map
        (fun idx =>
          min ((idx.map (fun i => calculateActualWordVariants (o.getD i ""))).prod)
            U64MAX)).sum =
      k.factorial *
        ((List.sublistsLen k (List.range o1.length)).map
          (fun s =>
            min ((s.map (fun i => calculateActualWordVariants (o.getD i ""))).prod)
              U64MAX)).sum := by
    intro o
    unfold kpermutations
    rw [sum_map_flatMap]
    have hinner : ∀ s ∈ List.sublistsLen k (List.range o1.length),
        ((permutationsOf s).map
          (fun idx =>
            min ((idx.map (fun i => calculateActualWordVariants (o.getD i ""))).prod)
              U64MAX)).sum =
        k.factorial *
          min ((s.map (fun i => calculateActualWordVariants (o.getD i ""))).prod)
            U64MAX := by
      intro s hs
      have hslen : s.length = k := (List.mem_sublistsLen.mp hs).2
      rw [sum_map_const_of_eq _ _
        (min ((s.map (fun i => calculateActualWordVariants (o.getD i ""))).prod)
          U64MAX)
        (fun p hp => by
          have hpp := perm_of_mem_permutationsOf hp
          rw [List.Perm.prod_eq
            (hpp.map (fun i => calculateActualWordVariants (o.getD i "")))])]
      rw [length_permutationsOf, hslen]
    rw [List.map_congr_left hinner, List.sum_map_mul_left]
  rw [collapse o1, collapse o2]
  congr 1
  rw [sum_sublistsLen_map_counts, sum_sublistsLen_map_counts]
  have h1 : Multiset.map (fun i => calculateActualWordVariants (o1.getD i ""))
      ↑(List.range o1.length) =
      ↑(o1.map calculateActualWordVariants) := by
    change (↑((List.range o1.length).map
      (fun i => calculateActualWordVariants (o1.getD i ""))) : Multiset Nat) = _
    rw [range_map_getD_comp]
  have h2 : Multiset.map (fun i => calculateActualWordVariants (o2.getD i ""))
      ↑(List.range o1.length) =
      ↑(o2.map calculateActualWordVariants) := by
    rw [← hn]
    change (↑((List.range o2.length).map
      (fun i => calculateActualWordVariants (o2.getD i ""))) : Multiset Nat) = _
    rw [range_map_getD_comp]
  rw [h1, h2, Multiset.coe_eq_coe.mpr (hperm.map calculateActualWordVariants)]

theorem comboEntryBase_perm_congr (o1 o2 : List String)
    (hperm : List.Perm o1 o2) (k : Nat) :
    comboEntryBase o1 k = comboEntryBase o2 k := by
  unfold comboEntryBase
  by_cases hk : k = 1
  · rw [if_pos hk, if_pos hk, wrapSum_eq, wrapSum_eq,
      List.Perm.sum_eq (hperm.map calculateActualWordVariants)]
  · rw [if_neg hk, if_neg hk]
    have helem : ∀ (o : List String),
        (kpermutations (List.range o.length) k).map
          (fun indices =>
            indices.foldl
              (fun cartesianProduct idx =>
                satMul cartesianProduct
                  (calculateActualWordVariants (o.getD idx "")))
              1) =
        (kpermutations (List.range o.length) k).map
          (fun idx =>
            min ((idx.map (fun i => calculateActualWordVariants (o.getD i ""))).prod)
              U64MAX) := by
      intro o
      apply List.map_congr_left
      intro idx _
      rw [show (idx.foldl
            (fun cartesianProduct i =>
              satMul cartesianProduct (calculateActualWordVariants (o.getD i "")))
            1) =
          (idx.map (fun i => calculateActualWordVariants (o.getD i ""))).foldl
            satMul 1 from (List.foldl_map _ _ _ _).symm]
      rw [foldl_satMul_eq _ 1 (by unfold U64MAX; omega)
        (by
          intro x hx
          obtain ⟨i, _, hi⟩ := List.mem_map.mp hx
          rw [← hi]
          exact calculateActualWordVariants_pos _)]
      rw [Nat.one_mul]
    rw [helem o1, helem o2, satSumBreak_eq_min, satSumBreak_eq_min,
      kperm_counts_sum_invariant o1 o2 hperm k]

/-- The order-independent part of a `WordCountBreakdown` entry. -/
def wcProj (b : WordCountBreakdown) : Nat × Nat := (b.word_count, b.combinations)

theorem wordCountEntry_perm_congr (o1 o2 : List String)
    (hperm : List.Perm o1 o2) (k : Nat) (sp : Bool) :
    wcProj (wordCountEntry o1 k sp) = wcProj (wordCountEntry o2 k sp) := by
  unfold wcProj wordCountEntry
  dsimp only
  rw [comboEntryBase_perm_congr o1 o2 hperm k]

theorem breakdownLoop_perm_congr (o1 o2 : List String)
    (hperm : List.Perm o1 o2) (sp : Bool) :
    ∀ (ks : List Nat) (acc1 acc2 : List WordCountBreakdown),
    acc1.map wcProj = acc2.map wcProj →
    (breakdownLoop o1 sp ks acc1).map (List.map wcProj) =
      (breakdownLoop o2 sp ks acc2).map (List.map wcProj) := by
  have hn : o2.length = o1.length := hperm.length_eq.symm
  intro ks
  induction ks with
  | nil =>
    intro acc1 acc2 h
    unfold breakdownLoop
    simp only [Except.map, h]
  | cons k ks ih =>
    intro acc1 acc2 h
    unfold breakdownLoop
    rw [hn]
    cases hp : permutationCount o1.length k with
    | error e => simp only [Except.map_error]
    | ok v =>
      apply ih
      rw [List.map_append, List.map_append, h]
      simp only [List.map_cons, List.map_nil]
      rw [wordCountEntry_perm_congr o1 o2 hperm k sp]

theorem estimateAveragePasswordLength_perm_congr (o1 o2 : List String)
    (hperm : List.Perm o1 o2) (sp : Bool) :
    estimateAveragePasswordLength o1 sp = estimateAveragePasswordLength o2 sp := by
  unfold estimateAveragePasswordLength
  have hlen : o1.length = o2.length := hperm.length_eq
  have hsum : (o1.map byteLen).sum = (o2.map byteLen).sum :=
    List.Perm.sum_eq (hperm.map byteLen)
  have hemp : o1.isEmpty = o2.isEmpty := by
    cases o1 with
    | nil => rw [List.perm_nil.mp hperm.symm]
    | cons x xs =>
      cases o2 with
      | nil => exact absurd (List.perm_nil.mp hperm) (by simp)
      | cons y ys => rfl
  rw [hemp, hsum, hlen]

/-- The fields of a `CombinatorialAnalysis` that do not depend on the
deduplication order: everything except `by_word_count[].average_length`. -/
def analysisObservables (a : CombinatorialAnalysis) :
    Nat × Nat × Nat × Nat × Nat × Nat × List (Nat × Nat) :=
  (a.total_combinations, a.estimated_file_size_bytes,
   a.breakdown.word_permutations, a.breakdown.leet_variants,
   a.breakdown.case_variants, a.breakdown.special_char_variants,
   a.breakdown.by_word_count.map wcProj)

/-- **C7** (amended): `calculate_total_combinations` is deterministic in every
field except `by_word_count[].average_length` — for any two iteration orders
of the deduplication `HashSet` (permutations of each other), the two analyses
agree on `total_combinations`, `estimated_file_size_bytes`, and every
breakdown field including each entry's `word_count` and `combinations`;
only `average_length` depends on the arbitrary order. -/
theorem c7_deterministic_up_to_average_length (words o1 o2 : List String)
    (config : CombinatorialConfig) (hperm : List.Perm o1 o2) :
    (calculateTotalCombinations words o1 config).map analysisObservables =
      (calculateTotalCombinations words o2 config).map analysisObservables := by
  have hn : o2.length = o1.length := hperm.length_eq.symm
  unfold calculateTotalCombinations calculateBreakdownByWordCount
  by_cases he : words.isEmpty
  · rw [if_pos he, if_pos he]
  · rw [if_neg he, if_neg he, hn]
    cases hw : calculateWordPermutations o1.length config.max_words with
    | error e => simp only [Except.map_error]
    | ok wp =>
      dsimp only
      have hbd := breakdownLoop_perm_congr o1 o2 hperm config.include_special_chars
        (List.range' 1 (min config.max_words o1.length)) [] [] rfl
      cases hb1 : breakdownLoop o1 config.include_special_chars
          (List.range' 1 (min config.max_words o1.length)) [] with
      | error e1 =>
        rw [hb1] at hbd
        cases hb2 : breakdownLoop o2 config.include_special_chars
            (List.range' 1 (min config.max_words o1.length)) [] with
        | error e2 =>
          rw [hb2] at hbd
          have h2 : (Except.error e1 : Except String (List (Nat × Nat))) =
              Except.error e2 := hbd
          injection h2 with he
          dsimp only
          rw [he]
        | ok l2 =>
          rw [hb2] at hbd
          exact Except.noConfusion hbd
      | ok l1 =>
        rw [hb1] at hbd
        cases hb2 : breakdownLoop o2 config.include_special_chars
            (List.range' 1 (min config.max_words o1.length)) [] with
        | error e2 =>
          rw [hb2] at hbd
          exact Except.noConfusion hbd
        | ok l2 =>
          rw [hb2] at hbd
          have h2 : (Except.ok (l1.map wcProj) : Except String (List (Nat × Nat))) =
              Except.ok (l2.map wcProj) := hbd
          injection h2 with hproj
          dsimp only
          unfold analysisObservables
          have hcomb : l1.map (fun b => b.combinations) =
              l2.map (fun b => b.combinations) := by
            have h3 := congrArg (List.map Prod.snd) hproj
            rw [List.map_map, List.map_map] at h3
            exact h3
          rw [hcomb, estimateAveragePasswordLength_perm_congr o1 o2 hperm
            config.include_special_chars, wrapProd_eq, wrapProd_eq,
            List.Perm.prod_eq (hperm.map calculateLeetVariants)]
          dsimp only [Except.map]
          rw [hproj]

/-- Witness for the amended C7 theorem, instantiated at the word list
`["admin", "pass"]` with its two possible deduplication orders. -/
theorem c7_deterministic_up_to_average_length_witness :
    List.Perm ["admin", "pass"] ["pass", "admin"] ∧
      (calculateTotalCombinations ["admin", "pass"] ["admin", "pass"]
          ⟨2, false⟩).map analysisObservables =
        (calculateTotalCombinations ["admin", "pass"] ["pass", "admin"]
          ⟨2, false⟩).map analysisObservables :=
  ⟨by decide, c7_deterministic_up_to_average_length ["admin", "pass"]
    ["admin", "pass"] ["pass", "admin"] ⟨2, false⟩ (by decide)⟩
